import Mathlib

set_option maxRecDepth 100000

/-!
Verification of the pathfinder color component (src/color/src/lib.rs).

The development embeds the two color value types and their operations in
Lean 4.  The four 8-bit channels of `ColorU` are modelled as `Fin 256`.
The floating-point lanes of `ColorF` are modelled as exact rational
values together with a round-to-nearest-even function `r32` implementing
IEEE-754 binary32 rounding (with the subnormal exponent clamp at -149;
overflow to infinity is outside the range exercised by any claim).  Every
arithmetic operation of the source (`+`, `-`, `*`, `/` on f32 lanes,
truncating conversion to i32, wrapping conversion to u8) is modelled by
performing the exact rational operation and rounding the result, which is
exactly the IEEE-754 semantics of the corresponding machine operation.

All model functions are computable at the integer level so that concrete
instances reduce by `decide`.
-/

/-- Fuel-driven binary logarithm: `log2fuel f n` is the floor of the base-2
logarithm of `n` as long as `n ≤ f` and `1 ≤ n`. -/
def log2fuel : ℕ → ℕ → ℕ
  | 0, _ => 0
  | f + 1, n => if n < 2 then 0 else log2fuel f (n / 2) + 1

/-- Floor of the base-2 logarithm of a natural number (0 at 0). -/
def nlog2 (n : ℕ) : ℕ := log2fuel n n

/-- Floor of the base-2 logarithm of the positive rational `n / d`. -/
def ilog2 (n d : ℕ) : ℤ :=
  if (d : ℤ) * 2 ^ (((nlog2 n : ℤ) - (nlog2 d : ℤ)).toNat) ≤
      (n : ℤ) * 2 ^ ((-((nlog2 n : ℤ) - (nlog2 d : ℤ))).toNat)
  then (nlog2 n : ℤ) - (nlog2 d : ℤ)
  else (nlog2 n : ℤ) - (nlog2 d : ℤ) - 1

/-- Round `N / D` to the nearest natural number, ties to even. -/
def roundEvenNat (N D : ℕ) : ℕ :=
  if 2 * (N % D) < D then N / D
  else if D < 2 * (N % D) then N / D + 1
  else if (N / D) % 2 = 0 then N / D else N / D + 1

/-- Split off the largest power of two: `stripTwos f m = (m0, t)` with
`m0 * 2 ^ t = m` and `m0` odd whenever `1 ≤ m ≤ f`. -/
def stripTwos : ℕ → ℕ → ℕ × ℕ
  | 0, m => (m, 0)
  | f + 1, m =>
    if m % 2 = 0 ∧ m ≠ 0 then
      ((stripTwos f (m / 2)).1, (stripTwos f (m / 2)).2 + 1)
    else (m, 0)

theorem stripTwos_mul : ∀ f m, (stripTwos f m).1 * 2 ^ (stripTwos f m).2 = m := by
  intro f
  induction f with
  | zero => intro m; simp [stripTwos]
  | succ f ih =>
    intro m
    by_cases h : m % 2 = 0 ∧ m ≠ 0
    · have h2 := ih (m / 2)
      simp only [stripTwos, if_pos h, pow_succ]
      rw [← Nat.mul_assoc, h2]
      omega
    · simp [stripTwos, if_neg h]

theorem stripTwos_odd : ∀ f m, m ≤ f → m ≠ 0 → (stripTwos f m).1 % 2 = 1 := by
  intro f
  induction f with
  | zero => intro m h1 h2; omega
  | succ f ih =>
    intro m h1 h2
    by_cases h : m % 2 = 0 ∧ m ≠ 0
    · simp only [stripTwos, if_pos h]
      exact ih (m / 2) (by omega) (by omega)
    · simp only [stripTwos, if_neg h]
      omega

theorem mkDyadic_natAbs {m : ℤ} :
    (if m < 0 then -(((stripTwos m.natAbs m.natAbs).1 : ℤ))
     else ((stripTwos m.natAbs m.natAbs).1 : ℤ)).natAbs =
      (stripTwos m.natAbs m.natAbs).1 := by
  by_cases h : m < 0 <;> simp [h]

theorem mkDyadic_coprime {m : ℤ} (hm : ¬m.natAbs = 0) (k : ℕ) :
    (if m < 0 then -(((stripTwos m.natAbs m.natAbs).1 : ℤ))
     else ((stripTwos m.natAbs m.natAbs).1 : ℤ)).natAbs.Coprime (2 ^ k) := by
  rw [mkDyadic_natAbs]
  have h1 : (stripTwos m.natAbs m.natAbs).1 % 2 = 1 :=
    stripTwos_odd _ _ le_rfl hm
  exact Nat.Coprime.pow_right k
    (Nat.coprime_two_right.mpr (Nat.odd_iff.mpr h1))

/-- Exact rational value of the dyadic number `m * 2 ^ e`, built directly as a
reduced fraction so that it evaluates inside the kernel. -/
def mkDyadic (m : ℤ) (e : ℤ) : ℚ :=
  if hm : m.natAbs = 0 then 0
  else if 0 ≤ e + ((stripTwos m.natAbs m.natAbs).2 : ℤ) then
    Rat.mk'
      ((if m < 0 then -(((stripTwos m.natAbs m.natAbs).1 : ℤ))
        else ((stripTwos m.natAbs m.natAbs).1 : ℤ)) *
        2 ^ (e + ((stripTwos m.natAbs m.natAbs).2 : ℤ)).toNat)
      1 one_ne_zero (Nat.coprime_one_right _)
  else
    Rat.mk'
      (if m < 0 then -(((stripTwos m.natAbs m.natAbs).1 : ℤ))
       else ((stripTwos m.natAbs m.natAbs).1 : ℤ))
      (2 ^ (-(e + ((stripTwos m.natAbs m.natAbs).2 : ℤ))).toNat)
      (Nat.two_pow_pos _).ne'
      (mkDyadic_coprime hm _)

/-- Round the rational `n / d` (with `d ≠ 0`) to the nearest IEEE-754
binary32 value, ties to even, with the subnormal exponent clamp at
`2 ^ (-149)`.  The significand is found by scaling into the appropriate
binade and rounding the scaled integer quotient to the nearest (even)
integer. -/
def r32int (n : ℤ) (d : ℕ) : ℚ :=
  if n = 0 then 0
  else
    mkDyadic
      ((if n < 0 then -1 else 1) *
        (roundEvenNat (n.natAbs * 2 ^ (-(max (ilog2 n.natAbs d - 23) (-149))).toNat)
                      (d * 2 ^ (max (ilog2 n.natAbs d - 23) (-149)).toNat) : ℤ))
      (max (ilog2 n.natAbs d - 23) (-149))

/-- Round an exact rational to the nearest IEEE-754 binary32 value. -/
def r32 (q : ℚ) : ℚ := r32int q.num q.den

/-- IEEE-754 binary32 addition: exact sum, then rounding. -/
def fadd (a b : ℚ) : ℚ := r32int (a.num * (b.den : ℤ) + b.num * (a.den : ℤ)) (a.den * b.den)

/-- IEEE-754 binary32 subtraction: exact difference, then rounding. -/
def fsub (a b : ℚ) : ℚ := r32int (a.num * (b.den : ℤ) - b.num * (a.den : ℤ)) (a.den * b.den)

/-- IEEE-754 binary32 multiplication: exact product, then rounding. -/
def fmul (a b : ℚ) : ℚ := r32int (a.num * b.num) (a.den * b.den)

/-- IEEE-754 binary32 division: exact quotient, then rounding (divisor
nonzero in every use below). -/
def fdiv (a b : ℚ) : ℚ :=
  r32int ((if b.num < 0 then -1 else 1) * a.num * (b.den : ℤ)) (a.den * b.num.natAbs)

/-- Truncation of a rational toward zero, the semantics of the f32-to-i32
lane conversion. -/
def ftrunc (q : ℚ) : ℤ := q.num.tdiv (q.den : ℤ)

/-- Modelled from the spec: the four-lane f32 vector `F32x4` of the
pathfinder_simd crate (not under src/), described in the spec as a
fixed-width (4-lane) numeric vector supporting lane-wise add, subtract
and scalar-broadcast multiply.  Lanes hold exact binary32 values,
modelled as rationals. -/
structure F32x4 where
  x0 : ℚ
  x1 : ℚ
  x2 : ℚ
  x3 : ℚ
deriving DecidableEq

/-- Modelled from the spec: `F32x4::new`, building a vector from four lanes. -/
def F32x4.new (a b c d : ℚ) : F32x4 := ⟨a, b, c, d⟩

/-- Modelled from the spec: `F32x4::splat`, broadcasting one value to all lanes. -/
def F32x4.splat (a : ℚ) : F32x4 := ⟨a, a, a, a⟩

/-- Modelled from the spec: lane-wise f32 multiplication of two vectors. -/
def F32x4.mul (u w : F32x4) : F32x4 :=
  ⟨fmul u.x0 w.x0, fmul u.x1 w.x1, fmul u.x2 w.x2, fmul u.x3 w.x3⟩

/-- Modelled from the spec: lane-wise f32 addition of two vectors. -/
def F32x4.add (u w : F32x4) : F32x4 :=
  ⟨fadd u.x0 w.x0, fadd u.x1 w.x1, fadd u.x2 w.x2, fadd u.x3 w.x3⟩

/-- Modelled from the spec: lane-wise f32 subtraction of two vectors. -/
def F32x4.sub (u w : F32x4) : F32x4 :=
  ⟨fsub u.x0 w.x0, fsub u.x1 w.x1, fsub u.x2 w.x2, fsub u.x3 w.x3⟩

/-- Modelled from the spec: `F32x4::to_i32x4`, the lane-wise conversion to
32-bit integers, truncating each lane toward zero. -/
def F32x4.to_i32x4 (u : F32x4) : ℤ × ℤ × ℤ × ℤ :=
  (ftrunc u.x0, ftrunc u.x1, ftrunc u.x2, ftrunc u.x3)

/-- Modelled from the spec: the all-zero default value of `F32x4`. -/
def F32x4.zeroDefault : F32x4 := ⟨0, 0, 0, 0⟩

/-- Integer color: four u8 channels in declaration order r, g, b, a
(struct `ColorU`). -/
structure ColorU where
  r : Fin 256
  g : Fin 256
  b : Fin 256
  a : Fin 256
deriving DecidableEq

/-- Wrapping conversion of a natural number to u8 (the Rust `as u8` cast). -/
def u8ofNat (k : ℕ) : Fin 256 := ⟨k % 256, Nat.mod_lt _ (by omega)⟩

/-- Wrapping conversion of an i32 value to u8 (the Rust `as u8` cast keeps
the low 8 bits of the two-complement representation). -/
def u8ofInt (z : ℤ) : Fin 256 := ⟨(z % 256).toNat, by omega⟩

/-- Bitwise complement on u8 (the Rust expression `!0` denotes 255). -/
def u8not (v : Fin 256) : Fin 256 := ⟨255 - v.val, by omega⟩

/-- ColorU::new. -/
def ColorU.new (r g b a : Fin 256) : ColorU := ⟨r, g, b, a⟩

/-- ColorU::from_u32: unpack a 32-bit value, bits [31:24] to r, [23:16] to g,
[15:8] to b, [7:0] to a. -/
def ColorU.from_u32 (rgba : ℕ) : ColorU :=
  ⟨u8ofNat (rgba >>> 24), u8ofNat ((rgba >>> 16) &&& 0xff),
   u8ofNat ((rgba >>> 8) &&& 0xff), u8ofNat (rgba &&& 0xff)⟩

/-- ColorU::transparent_black. -/
def ColorU.transparent_black : ColorU := ColorU.from_u32 0

/-- ColorU::black. -/
def ColorU.black : ColorU := ⟨0, 0, 0, 255⟩

/-- Opacity predicate of ColorU (the source method on ColorU whose body is
`self.a == !0`): alpha equals !0. -/
def ColorU.opacity_check (c : ColorU) : Bool := decide (c.a = u8not 0)

/-- ColorU::is_fully_transparent: alpha equals 0. -/
def ColorU.is_fully_transparent (c : ColorU) : Bool := decide (c.a = 0)

/-- Normalized color: a wrapper around one `F32x4` (struct `ColorF`). -/
structure ColorF where
  v : F32x4
deriving DecidableEq

/-- ColorU::to_f32: convert each channel to f32 and multiply the vector by
the splat of the f32 constant 1.0 / 255.0. -/
def ColorU.to_f32 (c : ColorU) : ColorF :=
  ⟨(F32x4.new (c.r.val : ℚ) (c.g.val : ℚ) (c.b.val : ℚ) (c.a.val : ℚ)).mul
    (F32x4.splat (fdiv 1 255))⟩

/-- ColorF::new. -/
def ColorF.new (r g b a : ℚ) : ColorF := ⟨F32x4.new r g b a⟩

/-- ColorF::transparent_black (the derived default value, all lanes zero). -/
def ColorF.transparent_black : ColorF := ⟨F32x4.zeroDefault⟩

/-- ColorF::white. -/
def ColorF.white : ColorF := ⟨F32x4.splat 1⟩

/-- ColorF::to_u8: multiply all lanes by 255.0, truncate each lane to i32,
and cast each lane to u8. -/
def ColorF.to_u8 (c : ColorF) : ColorU :=
  ⟨u8ofInt (c.v.mul (F32x4.splat 255)).to_i32x4.1,
   u8ofInt (c.v.mul (F32x4.splat 255)).to_i32x4.2.1,
   u8ofInt (c.v.mul (F32x4.splat 255)).to_i32x4.2.2.1,
   u8ofInt (c.v.mul (F32x4.splat 255)).to_i32x4.2.2.2⟩

/-- ColorF::lerp: self + (other - self) * splat t, lane-wise. -/
def ColorF.lerp (c : ColorF) (other : ColorF) (t : ℚ) : ColorF :=
  ⟨c.v.add ((other.v.sub c.v).mul (F32x4.splat t))⟩

/-- ColorF::r, the first lane. -/
def ColorF.r (c : ColorF) : ℚ := c.v.x0

/-- ColorF::g, the second lane. -/
def ColorF.g (c : ColorF) : ℚ := c.v.x1

/-- ColorF::b, the third lane. -/
def ColorF.b (c : ColorF) : ℚ := c.v.x2

/-- ColorF::a, the fourth lane. -/
def ColorF.a (c : ColorF) : ℚ := c.v.x3

/-- Lowercase hexadecimal digits of a natural number (the Rust `x` format). -/
def hexStr (n : ℕ) : String := String.mk (Nat.toDigits 16 n)

/-- Rust `{:02x}` formatting: lowercase hexadecimal, zero-padded to width 2. -/
def hex02 (n : ℕ) : String :=
  (if (hexStr n).length < 2 then "0" else "") ++ hexStr n

/-- Debug formatting of ColorU, with the f32 Display formatting of the
standard library abstracted as `fmtF32`: if alpha is 255 the channels are
written as a lowercase hex triplet behind `#`, otherwise as
`rgba(r, g, b, x)` with decimal channels and x the f32 quotient a / 255.0. -/
def ColorU.fmtDebug (fmtF32 : ℚ → String) (c : ColorU) : String :=
  if c.a.val = 255 then
    "#" ++ hex02 c.r.val ++ hex02 c.g.val ++ hex02 c.b.val
  else
    "rgba(" ++ Nat.repr c.r.val ++ ", " ++ Nat.repr c.g.val ++ ", " ++
      Nat.repr c.b.val ++ ", " ++ fmtF32 (fdiv (c.a.val : ℚ) 255) ++ ")"

/-- Comparison of two u8 values (the Rust derived lexicographic order
compares numerically on each field). -/
def cmpN (m n : ℕ) : Ordering :=
  if m < n then Ordering.lt else if m = n then Ordering.eq else Ordering.gt

/-- Derived Ord of ColorU: compare the fields in declaration order r, g, b, a,
with the later comparison used only on ties. -/
def ColorU.cmp (c1 c2 : ColorU) : Ordering :=
  (cmpN c1.r.val c2.r.val).then
    ((cmpN c1.g.val c2.g.val).then
      ((cmpN c1.b.val c2.b.val).then (cmpN c1.a.val c2.a.val)))

/-- Strict order of ColorU induced by the derived Ord. -/
def ColorU.lt (c1 c2 : ColorU) : Prop := ColorU.cmp c1 c2 = Ordering.lt

instance (c1 c2 : ColorU) : Decidable (ColorU.lt c1 c2) := by
  unfold ColorU.lt; infer_instance

/-- Modelled from the spec: the derived hash of ColorU combines the field
values in the fixed declaration order r, g, b, a; equal field tuples hash
identically.  The hash combination is modelled as the injective base-256
packing of the four fields in that order. -/
def ColorU.hashFields (c : ColorU) : ℕ :=
  ((c.r.val * 256 + c.g.val) * 256 + c.b.val) * 256 + c.a.val

theorem and255_eq_mod (x : ℕ) : x &&& 255 = x % 256 := by
  have h := Nat.and_pow_two_sub_one_eq_mod x 8
  norm_num at h
  exact h

theorem pow2_24 : (2 : ℕ) ^ 24 = 16777216 := by norm_num

theorem pow2_16 : (2 : ℕ) ^ 16 = 65536 := by norm_num

theorem pow2_8 : (2 : ℕ) ^ 8 = 256 := by norm_num

theorem pow2_32 : (2 : ℕ) ^ 32 = 4294967296 := by norm_num

theorem from_u32_vals (n : ℕ) (h : n < 2 ^ 32) :
    (ColorU.from_u32 n).r.val = n / 2 ^ 24 ∧
    (ColorU.from_u32 n).g.val = n / 2 ^ 16 % 256 ∧
    (ColorU.from_u32 n).b.val = n / 2 ^ 8 % 256 ∧
    (ColorU.from_u32 n).a.val = n % 256 := by
  unfold ColorU.from_u32 u8ofNat
  simp only [Nat.shiftRight_eq_div_pow, and255_eq_mod]
  rw [pow2_32] at h
  rw [pow2_24, pow2_16, pow2_8]
  refine ⟨by omega, by omega, by omega, by omega⟩

theorem or_eq_add_mod (x a k : ℕ) (hx : x % 2 ^ k = 0) (h : a < 2 ^ k) :
    x ||| a = x + a := by
  obtain ⟨c, rfl⟩ : ∃ c, x = c * 2 ^ k :=
    ⟨x / 2 ^ k, (Nat.div_mul_cancel (Nat.dvd_of_mod_eq_zero hx)).symm⟩
  rw [Nat.mul_comm c (2 ^ k)]
  apply Nat.eq_of_testBit_eq
  intro j
  rw [Nat.testBit_lor, Nat.testBit_mul_pow_two_add _ h,
    show 2 ^ k * c = c <<< k from by rw [Nat.shiftLeft_eq, Nat.mul_comm],
    Nat.testBit_shiftLeft]
  by_cases hj : j < k
  · have hk : ¬k ≤ j := by omega
    simp [hj, hk]
  · have hk : k ≤ j := by omega
    have ha : a.testBit j = false :=
      Nat.testBit_lt_two_pow (lt_of_lt_of_le h (Nat.pow_le_pow_right (by omega) hk))
    simp [hj, hk, ha]

/-- C5: for every 32-bit value n, from_u32 succeeds and extracts r from bits
[31:24], g from [23:16], b from [15:8], a from [7:0]; in particular
0x11223344 unpacks to (0x11, 0x22, 0x33, 0x44). -/
theorem claim_c5_from_u32_unpacks :
    (∀ n : ℕ, n < 2 ^ 32 →
      (ColorU.from_u32 n).r.val = n / 2 ^ 24 ∧
      (ColorU.from_u32 n).g.val = n / 2 ^ 16 % 256 ∧
      (ColorU.from_u32 n).b.val = n / 2 ^ 8 % 256 ∧
      (ColorU.from_u32 n).a.val = n % 256) ∧
    ColorU.from_u32 0x11223344 = ColorU.new 0x11 0x22 0x33 0x44 := by
  refine ⟨fun n h => from_u32_vals n h, by decide⟩

theorem claim_c5_witness :
    (0x11223344 : ℕ) < 2 ^ 32 ∧
      ((ColorU.from_u32 0x11223344).r.val = 0x11223344 / 2 ^ 24 ∧
       (ColorU.from_u32 0x11223344).g.val = 0x11223344 / 2 ^ 16 % 256 ∧
       (ColorU.from_u32 0x11223344).b.val = 0x11223344 / 2 ^ 8 % 256 ∧
       (ColorU.from_u32 0x11223344).a.val = 0x11223344 % 256) :=
  ⟨by decide, claim_c5_from_u32_unpacks.1 0x11223344 (by decide)⟩

/-- C9: repacking the channels of from_u32 n as
(r shifted left 24) or (g shifted left 16) or (b shifted left 8) or a
reproduces n exactly, and distinct 32-bit inputs yield distinct colors. -/
theorem claim_c9_from_u32_bijective :
    (∀ n : ℕ, n < 2 ^ 32 →
      ((ColorU.from_u32 n).r.val <<< 24) ||| ((ColorU.from_u32 n).g.val <<< 16) |||
        ((ColorU.from_u32 n).b.val <<< 8) ||| (ColorU.from_u32 n).a.val = n) ∧
    (∀ m n : ℕ, m < 2 ^ 32 → n < 2 ^ 32 →
      ColorU.from_u32 m = ColorU.from_u32 n → m = n) := by
  have repack : ∀ n : ℕ, n < 2 ^ 32 →
      ((ColorU.from_u32 n).r.val <<< 24) ||| ((ColorU.from_u32 n).g.val <<< 16) |||
        ((ColorU.from_u32 n).b.val <<< 8) ||| (ColorU.from_u32 n).a.val = n := by
    intro n h
    obtain ⟨hr, hg, hb, ha⟩ := from_u32_vals n h
    rw [hr, hg, hb, ha, Nat.shiftLeft_eq, Nat.shiftLeft_eq, Nat.shiftLeft_eq]
    rw [pow2_32] at h
    simp only [pow2_24, pow2_16, pow2_8]
    rw [or_eq_add_mod (n / 16777216 * 16777216) (n / 65536 % 256 * 65536) 24
      (by simp only [pow2_24]; omega) (by simp only [pow2_24]; omega)]
    rw [or_eq_add_mod (n / 16777216 * 16777216 + n / 65536 % 256 * 65536)
      (n / 256 % 256 * 256) 16
      (by simp only [pow2_16]; omega) (by simp only [pow2_16]; omega)]
    rw [or_eq_add_mod
      (n / 16777216 * 16777216 + n / 65536 % 256 * 65536 + n / 256 % 256 * 256)
      (n % 256) 8
      (by simp only [pow2_8]; omega) (by simp only [pow2_8]; omega)]
    omega
  exact ⟨repack, fun m n hm hn he => by rw [← repack m hm, ← repack n hn, he]⟩

theorem claim_c9_witness :
    (0x11223344 : ℕ) < 2 ^ 32 ∧
      ((ColorU.from_u32 0x11223344).r.val <<< 24) |||
        ((ColorU.from_u32 0x11223344).g.val <<< 16) |||
        ((ColorU.from_u32 0x11223344).b.val <<< 8) |||
        (ColorU.from_u32 0x11223344).a.val = 0x11223344 :=
  ⟨by decide, claim_c9_from_u32_bijective.1 0x11223344 (by decide)⟩

/-- C7: the opacity predicate holds exactly when alpha is 255, is_fully_transparent
exactly when alpha is 0, and both are false for alpha strictly between. -/
theorem claim_c7_predicates :
    ∀ c : ColorU,
      (c.opacity_check = true ↔ c.a.val = 255) ∧
      (c.is_fully_transparent = true ↔ c.a.val = 0) ∧
      (0 < c.a.val → c.a.val < 255 →
        c.opacity_check = false ∧ c.is_fully_transparent = false) := by
  intro c
  have ha := c.a.isLt
  simp only [ColorU.opacity_check, ColorU.is_fully_transparent, u8not, Fin.ext_iff,
    decide_eq_true_eq, decide_eq_false_iff_not]
  refine ⟨by omega, by constructor <;> omega, fun h1 h2 => ⟨by omega, by omega⟩⟩

theorem claim_c7_witness :
    0 < (ColorU.new 0 0 0 100).a.val ∧ (ColorU.new 0 0 0 100).a.val < 255 ∧
      (ColorU.new 0 0 0 100).opacity_check = false ∧
      (ColorU.new 0 0 0 100).is_fully_transparent = false :=
  ⟨by decide, by decide,
    (claim_c7_predicates (ColorU.new 0 0 0 100)).2.2 (by decide) (by decide)⟩

/-- C6: the derived strict order of ColorU is the lexicographic order on the
channel tuple (r, g, b, a), equality is channel-wise, the hash is determined
by the channel tuple, and (1,0,0,0) < (1,1,0,0) < (2,0,0,0). -/
theorem claim_c6_order_eq_hash :
    (∀ c1 c2 : ColorU, ColorU.lt c1 c2 ↔
      (c1.r.val < c2.r.val ∨ (c1.r.val = c2.r.val ∧
        (c1.g.val < c2.g.val ∨ (c1.g.val = c2.g.val ∧
          (c1.b.val < c2.b.val ∨ (c1.b.val = c2.b.val ∧
            c1.a.val < c2.a.val))))))) ∧
    (∀ c1 c2 : ColorU, c1 = c2 ↔
      (c1.r = c2.r ∧ c1.g = c2.g ∧ c1.b = c2.b ∧ c1.a = c2.a)) ∧
    (∀ c1 c2 : ColorU, c1 = c2 → ColorU.hashFields c1 = ColorU.hashFields c2) ∧
    (ColorU.lt (ColorU.new 1 0 0 0) (ColorU.new 1 1 0 0) ∧
      ColorU.lt (ColorU.new 1 1 0 0) (ColorU.new 2 0 0 0)) := by
  refine ⟨fun c1 c2 => ?_, fun c1 c2 => ?_, fun c1 c2 h => by rw [h], by decide⟩
  · simp only [ColorU.lt, ColorU.cmp, cmpN]
    split_ifs <;> simp_all [Ordering.then]
  · cases c1; cases c2; simp [ColorU.mk.injEq]

theorem claim_c6_witness :
    ColorU.hashFields (ColorU.new 1 2 3 4) = ColorU.hashFields (ColorU.new 1 2 3 4) :=
  claim_c6_order_eq_hash.2.2.1 (ColorU.new 1 2 3 4) (ColorU.new 1 2 3 4) rfl

/-- C2, counterexample: the red lane of the conversion of (3, 0, 0, 0) to
normalized form is not the single-precision division of 3.0 by 255.0 (the
code multiplies by the rounded constant 1.0 / 255.0 instead, which differs
by one ulp here). -/
theorem claim_c2_counterexample :
    (ColorU.to_f32 (ColorU.new 3 0 0 0)).r ≠ fdiv 3 255 := by decide

/-- C2, amended: every lane of to_f32 is the single-precision product of the
channel value (as f32) with the f32 constant 1.0 / 255.0, the correctly
rounded reciprocal of 255. -/
theorem claim_c2_amended :
    ∀ c : ColorU, c.to_f32 =
      ColorF.new (fmul (c.r.val : ℚ) (fdiv 1 255)) (fmul (c.g.val : ℚ) (fdiv 1 255))
        (fmul (c.b.val : ℚ) (fdiv 1 255)) (fmul (c.a.val : ℚ) (fdiv 1 255)) :=
  fun _ => rfl

theorem zpow_toNat_div (e : ℤ) :
    (2 : ℚ) ^ e = (2 : ℚ) ^ e.toNat / (2 : ℚ) ^ (-e).toNat := by
  rcases le_or_lt 0 e with h | h
  · rw [Int.toNat_eq_zero.mpr (by omega : -e ≤ 0), pow_zero, div_one,
      ← zpow_natCast (2 : ℚ) e.toNat, Int.toNat_of_nonneg h]
  · rw [Int.toNat_eq_zero.mpr (by omega : e ≤ 0), pow_zero,
      ← zpow_natCast (2 : ℚ) (-e).toNat, Int.toNat_of_nonneg (by omega : 0 ≤ -e),
      one_div, ← zpow_neg, neg_neg]

theorem mkDyadic_eq (m e : ℤ) : mkDyadic m e = (m : ℚ) * (2 : ℚ) ^ e := by
  by_cases hm : m.natAbs = 0
  · have hm0 : m = 0 := by omega
    subst hm0
    simp [mkDyadic]
  · have hcastQ : (((stripTwos m.natAbs m.natAbs).1 : ℚ)) *
        (2 : ℚ) ^ ((stripTwos m.natAbs m.natAbs).2 : ℕ) = ((m.natAbs : ℕ) : ℚ) := by
      exact_mod_cast congrArg (fun k : ℕ => (k : ℚ))
        (stripTwos_mul m.natAbs m.natAbs)
    by_cases he : (0 : ℤ) ≤ e + ((stripTwos m.natAbs m.natAbs).2 : ℤ)
    · unfold mkDyadic
      rw [dif_neg hm, if_pos he, Rat.mk'_eq_divInt, Rat.divInt_eq_div]
      have hp : (2 : ℚ) ^ ((e + ((stripTwos m.natAbs m.natAbs).2 : ℤ)).toNat) =
          (2 : ℚ) ^ e * (2 : ℚ) ^ ((stripTwos m.natAbs m.natAbs).2 : ℕ) := by
        rw [← zpow_natCast (2 : ℚ) (e + ((stripTwos m.natAbs m.natAbs).2 : ℤ)).toNat,
          Int.toNat_of_nonneg he, zpow_add₀ (by norm_num : (2 : ℚ) ≠ 0), zpow_natCast]
      rcases lt_or_le m 0 with hsgn | hsgn
      · rw [if_pos hsgn]
        have h2 : ((m.natAbs : ℕ) : ℚ) = -((m : ℤ) : ℚ) := by
          rw [Int.cast_natAbs, abs_of_neg hsgn]
          push_cast
          ring
        have hPm : (((stripTwos m.natAbs m.natAbs).1 : ℚ)) *
            (2 : ℚ) ^ ((stripTwos m.natAbs m.natAbs).2 : ℕ) = -((m : ℤ) : ℚ) := by
          rw [hcastQ, h2]
        push_cast
        rw [div_one, hp]
        calc -(((stripTwos m.natAbs m.natAbs).1 : ℚ)) *
              ((2 : ℚ) ^ e * (2 : ℚ) ^ ((stripTwos m.natAbs m.natAbs).2 : ℕ)) =
            -((((stripTwos m.natAbs m.natAbs).1 : ℚ)) *
              (2 : ℚ) ^ ((stripTwos m.natAbs m.natAbs).2 : ℕ)) * (2 : ℚ) ^ e := by ring
          _ = ((m : ℤ) : ℚ) * (2 : ℚ) ^ e := by rw [hPm]; ring
      · rw [if_neg (not_lt.mpr hsgn)]
        have h2 : ((m.natAbs : ℕ) : ℚ) = ((m : ℤ) : ℚ) := by
          rw [Int.cast_natAbs, abs_of_nonneg hsgn]
        have hPm : (((stripTwos m.natAbs m.natAbs).1 : ℚ)) *
            (2 : ℚ) ^ ((stripTwos m.natAbs m.natAbs).2 : ℕ) = ((m : ℤ) : ℚ) := by
          rw [hcastQ, h2]
        push_cast
        rw [div_one, hp]
        calc (((stripTwos m.natAbs m.natAbs).1 : ℚ)) *
              ((2 : ℚ) ^ e * (2 : ℚ) ^ ((stripTwos m.natAbs m.natAbs).2 : ℕ)) =
            ((((stripTwos m.natAbs m.natAbs).1 : ℚ)) *
              (2 : ℚ) ^ ((stripTwos m.natAbs m.natAbs).2 : ℕ)) * (2 : ℚ) ^ e := by ring
          _ = ((m : ℤ) : ℚ) * (2 : ℚ) ^ e := by rw [hPm]
    · unfold mkDyadic
      rw [dif_neg hm, if_neg he, Rat.mk'_eq_divInt, Rat.divInt_eq_div]
      have hp : (((2 : ℚ)) ^ ((-(e + ((stripTwos m.natAbs m.natAbs).2 : ℤ))).toNat))⁻¹ =
          (2 : ℚ) ^ e * (2 : ℚ) ^ ((stripTwos m.natAbs m.natAbs).2 : ℕ) := by
        rw [← zpow_natCast (2 : ℚ) (-(e + ((stripTwos m.natAbs m.natAbs).2 : ℤ))).toNat,
          Int.toNat_of_nonneg (by omega : (0 : ℤ) ≤ -(e + ((stripTwos m.natAbs m.natAbs).2 : ℤ))),
          ← zpow_neg, neg_neg, zpow_add₀ (by norm_num : (2 : ℚ) ≠ 0), zpow_natCast]
      rcases lt_or_le m 0 with hsgn | hsgn
      · rw [if_pos hsgn]
        have h2 : ((m.natAbs : ℕ) : ℚ) = -((m : ℤ) : ℚ) := by
          rw [Int.cast_natAbs, abs_of_neg hsgn]
          push_cast
          ring
        have hPm : (((stripTwos m.natAbs m.natAbs).1 : ℚ)) *
            (2 : ℚ) ^ ((stripTwos m.natAbs m.natAbs).2 : ℕ) = -((m : ℤ) : ℚ) := by
          rw [hcastQ, h2]
        push_cast
        rw [div_eq_mul_inv, hp]
        calc -(((stripTwos m.natAbs m.natAbs).1 : ℚ)) *
              ((2 : ℚ) ^ e * (2 : ℚ) ^ ((stripTwos m.natAbs m.natAbs).2 : ℕ)) =
            -((((stripTwos m.natAbs m.natAbs).1 : ℚ)) *
              (2 : ℚ) ^ ((stripTwos m.natAbs m.natAbs).2 : ℕ)) * (2 : ℚ) ^ e := by ring
          _ = ((m : ℤ) : ℚ) * (2 : ℚ) ^ e := by rw [hPm]; ring
      · rw [if_neg (not_lt.mpr hsgn)]
        have h2 : ((m.natAbs : ℕ) : ℚ) = ((m : ℤ) : ℚ) := by
          rw [Int.cast_natAbs, abs_of_nonneg hsgn]
        have hPm : (((stripTwos m.natAbs m.natAbs).1 : ℚ)) *
            (2 : ℚ) ^ ((stripTwos m.natAbs m.natAbs).2 : ℕ) = ((m : ℤ) : ℚ) := by
          rw [hcastQ, h2]
        push_cast
        rw [div_eq_mul_inv, hp]
        calc (((stripTwos m.natAbs m.natAbs).1 : ℚ)) *
              ((2 : ℚ) ^ e * (2 : ℚ) ^ ((stripTwos m.natAbs m.natAbs).2 : ℕ)) =
            ((((stripTwos m.natAbs m.natAbs).1 : ℚ)) *
              (2 : ℚ) ^ ((stripTwos m.natAbs m.natAbs).2 : ℕ)) * (2 : ℚ) ^ e := by ring
          _ = ((m : ℤ) : ℚ) * (2 : ℚ) ^ e := by rw [hPm]

/-- C4: lerp computes self + (other - self) * t lane-wise in single
precision on all four lanes including alpha, with t unclamped, and
lerp(transparentBlack, white, 0.5) is exactly (0.5, 0.5, 0.5, 0.5). -/
theorem claim_c4_lerp :
    (∀ s o : ColorF, ∀ t : ℚ,
      (s.lerp o t).r = fadd s.r (fmul (fsub o.r s.r) t) ∧
      (s.lerp o t).g = fadd s.g (fmul (fsub o.g s.g) t) ∧
      (s.lerp o t).b = fadd s.b (fmul (fsub o.b s.b) t) ∧
      (s.lerp o t).a = fadd s.a (fmul (fsub o.a s.a) t)) ∧
    ColorF.lerp ColorF.transparent_black ColorF.white (1 / 2) =
      ColorF.new (1 / 2) (1 / 2) (1 / 2) (1 / 2) := by
  constructor
  · intro s o t
    exact ⟨rfl, rfl, rfl, rfl⟩
  · have h : (1 / 2 : ℚ) = mkDyadic 1 (-1) := by
      rw [mkDyadic_eq, zpow_neg, zpow_one]
      norm_num
    rw [h]
    decide

theorem log2fuel_bracket : ∀ f n, 1 ≤ n → n ≤ f →
    2 ^ log2fuel f n ≤ n ∧ n < 2 ^ (log2fuel f n + 1) := by
  intro f
  induction f with
  | zero => intro n h1 h2; omega
  | succ f ih =>
    intro n h1 h2
    by_cases h : n < 2
    · simp only [log2fuel, if_pos h]
      constructor
      · simpa using h1
      · simpa using h
    · simp only [log2fuel, if_neg h]
      obtain ⟨ha, hb⟩ := ih (n / 2) (by omega) (by omega)
      constructor
      · rw [pow_succ]
        omega
      · rw [pow_succ]
        omega

theorem nlog2_bracket (n : ℕ) (h : 1 ≤ n) :
    2 ^ nlog2 n ≤ n ∧ n < 2 ^ (nlog2 n + 1) :=
  log2fuel_bracket n n h le_rfl

theorem ilog2_le (n d : ℕ) (hn : 1 ≤ n) (hd : 1 ≤ d) :
    (2 : ℚ) ^ ilog2 n d ≤ (n : ℚ) / (d : ℚ) := by
  obtain ⟨hn1, hn2⟩ := nlog2_bracket n hn
  obtain ⟨hd1, hd2⟩ := nlog2_bracket d hd
  have hdpos : (0 : ℚ) < (d : ℚ) := by exact_mod_cast hd
  unfold ilog2
  split_ifs with hT
  · rw [le_div_iff₀ hdpos, zpow_toNat_div, div_mul_eq_mul_div,
      div_le_iff₀ (by positivity)]
    calc (2 : ℚ) ^ ((nlog2 n : ℤ) - (nlog2 d : ℤ)).toNat * (d : ℚ)
        = ((d * 2 ^ ((nlog2 n : ℤ) - (nlog2 d : ℤ)).toNat : ℤ) : ℚ) := by
          push_cast
          ring
      _ ≤ ((n * 2 ^ (-((nlog2 n : ℤ) - (nlog2 d : ℤ))).toNat : ℤ) : ℚ) := by
          exact_mod_cast hT
      _ = (n : ℚ) * 2 ^ (-((nlog2 n : ℤ) - (nlog2 d : ℤ))).toNat := by
          push_cast
          ring
  · rw [le_div_iff₀ hdpos]
    have h1 : (d : ℚ) ≤ (2 : ℚ) ^ (nlog2 d + 1) := by exact_mod_cast hd2.le
    have h2 : ((2 : ℚ)) ^ (nlog2 n) ≤ (n : ℚ) := by exact_mod_cast hn1
    calc (2 : ℚ) ^ ((nlog2 n : ℤ) - (nlog2 d : ℤ) - 1) * (d : ℚ)
        ≤ (2 : ℚ) ^ ((nlog2 n : ℤ) - (nlog2 d : ℤ) - 1) * (2 : ℚ) ^ (nlog2 d + 1) := by
          apply mul_le_mul_of_nonneg_left h1 (by positivity)
      _ = (2 : ℚ) ^ (nlog2 n) := by
          rw [← zpow_natCast (2 : ℚ) (nlog2 d + 1), ← zpow_natCast (2 : ℚ) (nlog2 n),
            ← zpow_add₀ (by norm_num : (2 : ℚ) ≠ 0)]
          congr 1
          push_cast
          ring
      _ ≤ (n : ℚ) := h2

theorem roundEvenNat_le (N D : ℕ) (hD : 0 < D) :
    (roundEvenNat N D : ℚ) ≤ (N : ℚ) / (D : ℚ) + 1 / 2 := by
  have hDQ : (0 : ℚ) < (D : ℚ) := by exact_mod_cast hD
  have key : (N : ℚ) / (D : ℚ) = ((N / D : ℕ) : ℚ) + ((N % D : ℕ) : ℚ) / D := by
    rw [div_eq_iff (ne_of_gt hDQ), add_mul, div_mul_cancel₀ _ (ne_of_gt hDQ)]
    have h0 : N / D * D + N % D = N := by
      rw [Nat.mul_comm (N / D) D]
      exact Nat.div_add_mod N D
    calc (N : ℚ) = ((N / D * D + N % D : ℕ) : ℚ) := by rw [h0]
      _ = ((N / D : ℕ) : ℚ) * (D : ℚ) + ((N % D : ℕ) : ℚ) := by push_cast; ring
  have hhalf : ¬2 * (N % D) < D → (1 : ℚ) / 2 ≤ ((N % D : ℕ) : ℚ) / D := by
    intro hcond
    rw [div_le_div_iff₀ (by norm_num) hDQ]
    exact_mod_cast (by omega : 1 * D ≤ N % D * 2)
  have hmodnn : (0 : ℚ) ≤ ((N % D : ℕ) : ℚ) / D := by positivity
  unfold roundEvenNat
  split_ifs with h1 h2 h3
  · rw [key]
    linarith
  · have := hhalf (by omega)
    rw [key]
    push_cast
    linarith
  · rw [key]
    linarith
  · have := hhalf (by omega)
    rw [key]
    push_cast
    linarith

theorem r32int_nonneg (n : ℤ) (d : ℕ) (hn : 0 ≤ n) : 0 ≤ r32int n d := by
  unfold r32int
  split_ifs with h0 h1
  · exact le_rfl
  · omega
  · rw [mkDyadic_eq]
    positivity

theorem r32int_lt_256 (n : ℤ) (d : ℕ) (hn : 0 < n) (hd : 0 < d)
    (h : (n : ℚ) ≤ 255 * (d : ℚ)) : r32int n d < 256 := by
  have hdQ : (0 : ℚ) < (d : ℚ) := by exact_mod_cast hd
  have hq : (n : ℚ) / (d : ℚ) ≤ 255 := by
    rw [div_le_iff₀ hdQ]
    linarith
  have hnn : 1 ≤ n.natAbs := by omega
  have habs : ((n.natAbs : ℕ) : ℚ) = (n : ℚ) := by
    rw [Int.cast_natAbs, abs_of_nonneg hn.le]
  have hlog : (2 : ℚ) ^ ilog2 n.natAbs d ≤ 255 := by
    refine le_trans (ilog2_le n.natAbs d hnn hd) ?_
    rw [habs]
    exact hq
  have hle7 : ilog2 n.natAbs d ≤ 7 := by
    by_contra hc
    push_neg at hc
    have h8 : (2 : ℚ) ^ (8 : ℤ) ≤ (2 : ℚ) ^ ilog2 n.natAbs d :=
      zpow_le_zpow_right₀ (by norm_num) (by omega)
    have hv : (2 : ℚ) ^ (8 : ℤ) = 256 := by
      rw [show (8 : ℤ) = ((8 : ℕ) : ℤ) from rfl, zpow_natCast]
      norm_num
    linarith
  unfold r32int
  rw [if_neg (by omega : ¬n = 0), if_neg (by omega : ¬n < 0), mkDyadic_eq]
  set e : ℤ := max (ilog2 n.natAbs d - 23) (-149) with hedef
  have he16 : e ≤ -16 := by
    rw [hedef]
    exact max_le (by omega) (by omega)
  set N : ℕ := n.natAbs * 2 ^ (-e).toNat with hN
  set D : ℕ := d * 2 ^ e.toNat with hD
  have hDpos : 0 < D := by
    rw [hD]
    exact Nat.mul_pos hd (Nat.two_pow_pos _)
  have hre := roundEvenNat_le N D hDpos
  have hND : (N : ℚ) / (D : ℚ) = ((n : ℚ) / (d : ℚ)) * (2 : ℚ) ^ (-e) := by
    rw [hN, hD, zpow_toNat_div (-e), neg_neg]
    push_cast
    rw [habs, div_mul_div_comm]
  have hzz : (2 : ℚ) ^ (-e) * (2 : ℚ) ^ e = 1 := by
    rw [← zpow_add₀ (by norm_num : (2 : ℚ) ≠ 0)]
    simp
  have hsm : (2 : ℚ) ^ e ≤ (2 : ℚ) ^ (-16 : ℤ) :=
    zpow_le_zpow_right₀ (by norm_num) he16
  have hval : (2 : ℚ) ^ (-16 : ℤ) = 1 / 65536 := by
    rw [zpow_neg, show (16 : ℤ) = ((16 : ℕ) : ℤ) from rfl, zpow_natCast]
    norm_num
  have hepos : (0 : ℚ) < (2 : ℚ) ^ e := by positivity
  push_cast
  rw [one_mul]
  calc ((roundEvenNat N D : ℕ) : ℚ) * (2 : ℚ) ^ e
      ≤ ((N : ℚ) / (D : ℚ) + 1 / 2) * (2 : ℚ) ^ e :=
        mul_le_mul_of_nonneg_right hre hepos.le
    _ = (n : ℚ) / (d : ℚ) * ((2 : ℚ) ^ (-e) * (2 : ℚ) ^ e) + (2 : ℚ) ^ e * (1 / 2) := by
        rw [hND]
        ring
    _ = (n : ℚ) / (d : ℚ) + (2 : ℚ) ^ e / 2 := by
        rw [hzz]
        ring
    _ < 256 := by
        have hb : (2 : ℚ) ^ e ≤ 1 / 65536 := le_of_le_of_eq hsm hval
        linarith

theorem ftrunc_eq_floor (q : ℚ) (h : 0 ≤ q) : ftrunc q = ⌊q⌋ := by
  unfold ftrunc
  rw [Int.tdiv_eq_ediv (Rat.num_nonneg.mpr h) (by positivity : (0 : ℤ) ≤ (q.den : ℤ))]
  exact Rat.floor_def.symm

theorem ftrunc_nonneg (q : ℚ) (h : 0 ≤ q) : 0 ≤ ftrunc q := by
  rw [ftrunc_eq_floor q h]
  exact Int.floor_nonneg.mpr h

theorem ftrunc_le_255 (q : ℚ) (h0 : 0 ≤ q) (h : q < 256) : ftrunc q ≤ 255 := by
  rw [ftrunc_eq_floor q h0]
  have hf : ⌊q⌋ < 256 := by
    rw [Int.floor_lt]
    exact_mod_cast h
  omega

theorem to_u8_lane_bounds (q : ℚ) (h0 : 0 ≤ q) (h1 : q ≤ 1) :
    0 ≤ ftrunc (fmul q 255) ∧ ftrunc (fmul q 255) ≤ 255 := by
  have hfm : fmul q 255 = r32int (q.num * 255) q.den := by
    unfold fmul
    rw [Rat.num_ofNat, Rat.den_ofNat, Nat.mul_one]
  have hdenpos : 0 < q.den := Nat.pos_of_ne_zero q.den_nz
  have hnonneg : 0 ≤ fmul q 255 := by
    rw [hfm]
    exact r32int_nonneg _ _ (mul_nonneg (Rat.num_nonneg.mpr h0) (by norm_num))
  refine ⟨ftrunc_nonneg _ hnonneg, ?_⟩
  rcases eq_or_lt_of_le h0 with h0e | h0l
  · rw [← h0e]
    decide
  · apply ftrunc_le_255 _ hnonneg
    rw [hfm]
    apply r32int_lt_256
    · exact mul_pos (Rat.num_pos.mpr h0l) (by norm_num)
    · exact hdenpos
    · push_cast
      have h1c := h1
      rw [← Rat.num_div_den q] at h1c
      have hnd : (q.num : ℚ) ≤ (q.den : ℚ) :=
        (div_le_one (by exact_mod_cast hdenpos : (0 : ℚ) < (q.den : ℚ))).mp h1c
      linarith

theorem u8ofInt_val (z : ℤ) (hz0 : 0 ≤ z) (hz1 : z ≤ 255) :
    ((u8ofInt z).val : ℤ) = z := by
  simp only [u8ofInt]
  omega

/-- C3: when all four lanes lie in [0, 1], to_u8 yields exactly the
truncation toward zero of each lane times 255.0 (in single precision), the
truncated integers all lie in [0, 255], and no wrapping of the u8 target
occurs (the channel value equals the truncated integer itself). -/
theorem claim_c3_to_u8_truncates :
    ∀ cf : ColorF, 0 ≤ cf.r → cf.r ≤ 1 → 0 ≤ cf.g → cf.g ≤ 1 →
      0 ≤ cf.b → cf.b ≤ 1 → 0 ≤ cf.a → cf.a ≤ 1 →
      ((cf.to_u8.r.val : ℤ) = ftrunc (fmul cf.r 255) ∧
        0 ≤ ftrunc (fmul cf.r 255) ∧ ftrunc (fmul cf.r 255) ≤ 255) ∧
      ((cf.to_u8.g.val : ℤ) = ftrunc (fmul cf.g 255) ∧
        0 ≤ ftrunc (fmul cf.g 255) ∧ ftrunc (fmul cf.g 255) ≤ 255) ∧
      ((cf.to_u8.b.val : ℤ) = ftrunc (fmul cf.b 255) ∧
        0 ≤ ftrunc (fmul cf.b 255) ∧ ftrunc (fmul cf.b 255) ≤ 255) ∧
      ((cf.to_u8.a.val : ℤ) = ftrunc (fmul cf.a 255) ∧
        0 ≤ ftrunc (fmul cf.a 255) ∧ ftrunc (fmul cf.a 255) ≤ 255) := by
  intro cf h0r h1r h0g h1g h0b h1b h0a h1a
  obtain ⟨hr0, hr1⟩ := to_u8_lane_bounds _ h0r h1r
  obtain ⟨hg0, hg1⟩ := to_u8_lane_bounds _ h0g h1g
  obtain ⟨hb0, hb1⟩ := to_u8_lane_bounds _ h0b h1b
  obtain ⟨ha0, ha1⟩ := to_u8_lane_bounds _ h0a h1a
  exact ⟨⟨u8ofInt_val _ hr0 hr1, hr0, hr1⟩, ⟨u8ofInt_val _ hg0 hg1, hg0, hg1⟩,
    ⟨u8ofInt_val _ hb0 hb1, hb0, hb1⟩, ⟨u8ofInt_val _ ha0 ha1, ha0, ha1⟩⟩

theorem claim_c3_witness :
    (0 ≤ (ColorF.new 0 1 0 1).r ∧ (ColorF.new 0 1 0 1).r ≤ 1 ∧
      0 ≤ (ColorF.new 0 1 0 1).g ∧ (ColorF.new 0 1 0 1).g ≤ 1 ∧
      0 ≤ (ColorF.new 0 1 0 1).b ∧ (ColorF.new 0 1 0 1).b ≤ 1 ∧
      0 ≤ (ColorF.new 0 1 0 1).a ∧ (ColorF.new 0 1 0 1).a ≤ 1) ∧
    ((((ColorF.new 0 1 0 1).to_u8.r.val : ℤ) =
        ftrunc (fmul (ColorF.new 0 1 0 1).r 255) ∧
      0 ≤ ftrunc (fmul (ColorF.new 0 1 0 1).r 255) ∧
      ftrunc (fmul (ColorF.new 0 1 0 1).r 255) ≤ 255) ∧
     (((ColorF.new 0 1 0 1).to_u8.g.val : ℤ) =
        ftrunc (fmul (ColorF.new 0 1 0 1).g 255) ∧
      0 ≤ ftrunc (fmul (ColorF.new 0 1 0 1).g 255) ∧
      ftrunc (fmul (ColorF.new 0 1 0 1).g 255) ≤ 255) ∧
     (((ColorF.new 0 1 0 1).to_u8.b.val : ℤ) =
        ftrunc (fmul (ColorF.new 0 1 0 1).b 255) ∧
      0 ≤ ftrunc (fmul (ColorF.new 0 1 0 1).b 255) ∧
      ftrunc (fmul (ColorF.new 0 1 0 1).b 255) ≤ 255) ∧
     (((ColorF.new 0 1 0 1).to_u8.a.val : ℤ) =
        ftrunc (fmul (ColorF.new 0 1 0 1).a 255) ∧
      0 ≤ ftrunc (fmul (ColorF.new 0 1 0 1).a 255) ∧
      ftrunc (fmul (ColorF.new 0 1 0 1).a 255) ≤ 255)) :=
  ⟨⟨by decide, by decide, by decide, by decide,
    by decide, by decide, by decide, by decide⟩,
   claim_c3_to_u8_truncates (ColorF.new 0 1 0 1) (by decide) (by decide)
     (by decide) (by decide) (by decide) (by decide) (by decide) (by decide)⟩

theorem hex02_length : ∀ n : ℕ, n < 256 → (hex02 n).length = 2 := by decide

/-- C8: the debug text of a ColorU is the hex triplet behind `#` (two
lowercase hex digits per channel, 7 characters in total) when alpha is 255,
and otherwise `rgba(r, g, b, x)` with decimal channel values and x the f32
quotient alpha / 255.0 rendered by the ambient float formatting `fm`;
(255,0,0,255) formats as `#ff0000` and (255,0,0,128) prints its alpha
argument as exactly the f32 value of 128.0 / 255.0. -/
theorem claim_c8_fmt :
    (∀ fm : ℚ → String, ∀ c : ColorU,
      ColorU.fmtDebug fm c =
        if c.a.val = 255 then
          "#" ++ hex02 c.r.val ++ hex02 c.g.val ++ hex02 c.b.val
        else
          "rgba(" ++ Nat.repr c.r.val ++ ", " ++ Nat.repr c.g.val ++ ", " ++
            Nat.repr c.b.val ++ ", " ++ fm (fdiv (c.a.val : ℚ) 255) ++ ")") ∧
    (∀ n : ℕ, n < 256 → (hex02 n).length = 2) ∧
    (∀ fm : ℚ → String, ∀ c : ColorU, c.a.val = 255 →
      (ColorU.fmtDebug fm c).length = 7) ∧
    (∀ fm : ℚ → String, ColorU.fmtDebug fm (ColorU.new 255 0 0 255) = "#ff0000") ∧
    (∀ fm : ℚ → String, ColorU.fmtDebug fm (ColorU.new 255 0 0 128) =
      "rgba(255, 0, 0, " ++ fm (fdiv 128 255) ++ ")") := by
  refine ⟨fun fm c => rfl, hex02_length, ?_, fun fm => rfl, fun fm => rfl⟩
  intro fm c h
  unfold ColorU.fmtDebug
  rw [if_pos h]
  rw [String.length_append, String.length_append, String.length_append]
  rw [hex02_length _ c.r.isLt, hex02_length _ c.g.isLt, hex02_length _ c.b.isLt]
  decide

theorem claim_c8_witness :
    (0xab : ℕ) < 256 ∧ (hex02 0xab).length = 2 :=
  ⟨by decide, claim_c8_fmt.2.1 0xab (by decide)⟩

theorem roundtrip_byte : ∀ v : Fin 256,
    u8ofInt (ftrunc (fmul (fmul (v.val : ℚ) (fdiv 1 255)) 255)) = v := by decide

/-- C1: converting any ColorU to normalized f32 form and back to u8 form
reproduces all four channels exactly. -/
theorem claim_c1_roundtrip : ∀ c : ColorU, c.to_f32.to_u8 = c := by
  intro c
  obtain ⟨r, g, b, a⟩ := c
  have h : (ColorU.mk r g b a).to_f32.to_u8 =
      ColorU.mk (u8ofInt (ftrunc (fmul (fmul (r.val : ℚ) (fdiv 1 255)) 255)))
        (u8ofInt (ftrunc (fmul (fmul (g.val : ℚ) (fdiv 1 255)) 255)))
        (u8ofInt (ftrunc (fmul (fmul (b.val : ℚ) (fdiv 1 255)) 255)))
        (u8ofInt (ftrunc (fmul (fmul (a.val : ℚ) (fdiv 1 255)) 255))) := rfl
  rw [h, roundtrip_byte r, roundtrip_byte g, roundtrip_byte b, roundtrip_byte a]

theorem byte_lane_in01 : ∀ v : Fin 256,
    0 ≤ fmul (v.val : ℚ) (fdiv 1 255) ∧ fmul (v.val : ℚ) (fdiv 1 255) ≤ 1 := by
  decide

/-- C10: every lane of to_f32 lies in [0, 1]; in particular the largest
output, the single-precision product of 255.0 with the rounded constant
1.0 / 255.0, does not exceed 1.0. -/
theorem claim_c10_lanes_in01 :
    (∀ c : ColorU,
      (0 ≤ c.to_f32.r ∧ c.to_f32.r ≤ 1) ∧ (0 ≤ c.to_f32.g ∧ c.to_f32.g ≤ 1) ∧
      (0 ≤ c.to_f32.b ∧ c.to_f32.b ≤ 1) ∧ (0 ≤ c.to_f32.a ∧ c.to_f32.a ≤ 1)) ∧
    fmul (255 : ℚ) (fdiv 1 255) ≤ 1 := by
  constructor
  · intro c
    exact ⟨byte_lane_in01 c.r, byte_lane_in01 c.g, byte_lane_in01 c.b,
      byte_lane_in01 c.a⟩
  · decide
